import Mathlib

/-!
Shallow embedding of the filtering and ranking core of the
"Best Papers in Systems Security" page (`js/main.js`), together with
proofs of the documented properties of `applyFilters`,
`renderAuthorsRanking` / `renderFirstAuthorsRanking` (their aggregation,
sorting and dense-ranking logic) and the year-range slider handlers.

Modelling conventions:
* A missing `name` field on an author record is `none`; JavaScript also
  treats the empty string as falsy in `if (!name) return`, so the
  `truthy` helper below rejects both.
* A missing or non-array `authors` field on a paper is `none`.
* A JavaScript object used as a map (`authorPapers`) is an association
  list in key-insertion order, which is the iteration order of
  `Object.entries` for non-index string keys.
* `Array.prototype.sort` with a consistent comparator is stable
  (ES2019); it is modelled by `List.insertionSort`, which Mathlib shows
  to be stable, with the preorder induced by the comparator.  The
  comparator's `localeCompare` tie-break is modelled by the
  lexicographic order on `String`.
-/

namespace BestPapers

/-- An author record from `data/papers.json`: `{name, institution?}`.
`name = none` models a record whose `name` field is missing. -/
structure Author where
  name : Option String
  institution : Option String
deriving DecidableEq, Repr

/-- A paper record from `data/papers.json`.  `authors = none` models a
missing or non-array `authors` field. -/
structure Paper where
  title : String
  authors : Option (List Author)
  venue : String
  year : Int
  award : String
  url : Option String
deriving DecidableEq, Repr

/-- The filtering core of `applyFilters` in `js/main.js`: a venue
filter (skipped for the sentinel `"all"`), then a lower-bound year
filter (skipped when `yearFrom` is `null`), then an upper-bound year
filter (skipped when `yearTo` is `null`). -/
def applyFilters (allPapers : List Paper) (currentVenue : String)
    (yearFrom yearTo : Option Int) : List Paper :=
  let f1 :=
    if currentVenue ≠ "all" then
      allPapers.filter (fun p => p.venue == currentVenue)
    else
      allPapers
  let f2 :=
    match yearFrom with
    | some y => f1.filter (fun p => decide (y ≤ p.year))
    | none => f1
  match yearTo with
  | some y => f2.filter (fun p => decide (p.year ≤ y))
  | none => f2

/-- The combined predicate the spec states for `filter`. -/
def specFilterPred (v : String) (yFrom yTo : Int) (p : Paper) : Prop :=
  (v = "all" ∨ p.venue = v) ∧ yFrom ≤ p.year ∧ p.year ≤ yTo

instance (v : String) (yFrom yTo : Int) (p : Paper) :
    Decidable (specFilterPred v yFrom yTo p) := by
  unfold specFilterPred; infer_instance

/-! ### Ranking engine -/

/-- JavaScript truthiness of an author-name value: a missing field
(`undefined`) and the empty string are both falsy and make
`if (!name) return` skip the record. -/
def truthy : Option String → Option String
  | none => none
  | some s => if s = "" then none else some s

/-- Pushing `p` onto the entry of key `name` in an `authorPapers`
object, modelled as an association list in key-insertion order: a new
key is appended at the end, an existing key has `p` pushed onto its
array. -/
def insertAuthor (m : List (String × List Paper)) (name : String)
    (p : Paper) : List (String × List Paper) :=
  match m with
  | [] => [(name, [p])]
  | (n, ps) :: rest =>
    if n = name then (n, ps ++ [p]) :: rest
    else (n, ps) :: insertAuthor rest name p

/-- One step of the ALL-authors aggregation loop of
`renderAuthorsRanking`: skip a paper whose `authors` is missing or not
an array, otherwise push the paper once per author record with a truthy
name. -/
def addPaperAll (m : List (String × List Paper)) (p : Paper) :
    List (String × List Paper) :=
  match p.authors with
  | none => m
  | some as =>
    as.foldl
      (fun acc a =>
        match truthy a.name with
        | none => acc
        | some n => insertAuthor acc n p)
      m

/-- One step of the first-author aggregation loop of
`renderFirstAuthorsRanking`: skip papers with missing/non-array or
empty `authors`, and papers whose first author has a falsy name. -/
def addPaperFirst (m : List (String × List Paper)) (p : Paper) :
    List (String × List Paper) :=
  match p.authors with
  | none => m
  | some [] => m
  | some (a :: _) =>
    match truthy a.name with
    | none => m
    | some n => insertAuthor m n p

/-- The two author-selection modes of the ranking engine. -/
inductive Mode
  | all
  | first
deriving DecidableEq, Repr

def addPaper : Mode → List (String × List Paper) → Paper →
    List (String × List Paper)
  | .all => addPaperAll
  | .first => addPaperFirst

/-- The `authorPapers` object after the aggregation loop. -/
def aggregate (mode : Mode) (papers : List Paper) :
    List (String × List Paper) :=
  papers.foldl (addPaper mode) []

/-- The surname heuristic `getSurname` from `js/main.js`:
`name.trim().split(/\s+/)` and take the last token.  Lean's `String.split` keeps empty fragments between
adjacent separators, so they are filtered out to match the `/\s+/`
regex; on a whitespace-only name both give the empty string. -/
def getSurname (name : String) : String :=
  let parts := (name.trim.split (fun c => c.isWhitespace)).filter
    (fun s => s ≠ "")
  parts.getLastD ""

/-- One element of the intermediate `authorList` array:
`{name, papers, count}`. -/
structure AuthorStat where
  name : String
  papers : List Paper
  count : Nat
deriving DecidableEq, Repr

/-- An element of the final ranking, after `author.rank` is set. -/
structure AuthorEntry where
  name : String
  papers : List Paper
  count : Nat
  rank : Nat
deriving DecidableEq, Repr

/-- The total preorder induced by the sort comparator
`(a, b) => b.count - a.count || getSurname(a.name).localeCompare(getSurname(b.name))`:
`a` may be placed before `b` iff `a` has the larger count, or counts tie
and `a`'s surname key is `≤` `b`'s (`localeCompare` modelled by the
lexicographic order on `String`). -/
def authorRel (a b : AuthorStat) : Prop :=
  b.count < a.count ∨ (a.count = b.count ∧ getSurname a.name ≤ getSurname b.name)

instance : DecidableRel authorRel := fun a b => by
  unfold authorRel; infer_instance

/-- The total preorder induced by the per-author paper comparator
`(a, b) => b.year - a.year`: year descending. -/
def yearRel (a b : Paper) : Prop :=
  b.year ≤ a.year

instance : DecidableRel yearRel := fun a b => by
  unfold yearRel; infer_instance

/-- The dense-ranking loop: `previousCount` starts at `null`,
`currentRank` at 0, and `currentRank` is incremented exactly when the
entry's count differs from `previousCount`. -/
def assignRanksAux (previousCount : Option Nat) (currentRank : Nat) :
    List AuthorStat → List AuthorEntry
  | [] => []
  | a :: rest =>
    let r := if some a.count ≠ previousCount then currentRank + 1 else currentRank
    ⟨a.name, a.papers, a.count, r⟩ :: assignRanksAux (some a.count) r rest

def assignRanks (l : List AuthorStat) : List AuthorEntry :=
  assignRanksAux none 0 l

/-- The ranking pipeline shared by `renderAuthorsRanking` and
`renderFirstAuthorsRanking`: aggregate, build `authorList` with counts,
stable-sort by the count/surname comparator, assign dense ranks, and
stable-sort each author's papers by year descending (done in the code
by the in-place `author.papers.sort` while building the HTML). -/
def rankModel (mode : Mode) (papers : List Paper) : List AuthorEntry :=
  let agg := aggregate mode papers
  let authorList := agg.map (fun kv => AuthorStat.mk kv.1 kv.2 kv.2.length)
  let sorted := List.insertionSort authorRel authorList
  let ranked := assignRanks sorted
  ranked.map (fun e => { e with papers := List.insertionSort yearRel e.papers })

/-! ### Helper views used to state the claims -/

/-- Property lookup `authorPapers[name]` on the association list,
returning `[]` for an absent key. -/
def aggLookup : List (String × List Paper) → String → List Paper
  | [], _ => []
  | (n, ps) :: rest, name => if n = name then ps else aggLookup rest name

/-- The truthy author names of a paper, in author-list order,
with multiplicity. -/
def truthyNames (p : Paper) : List String :=
  match p.authors with
  | none => []
  | some as => as.filterMap (fun a => truthy a.name)

/-- The truthy name of the paper's first author, when there is one. -/
def firstTruthyName (p : Paper) : Option String :=
  match p.authors with
  | none => none
  | some [] => none
  | some (a :: _) => truthy a.name

/-- Number of author records named `X` across all papers, counted with
multiplicity inside each paper. -/
def totalCredits (X : String) (papers : List Paper) : Nat :=
  (papers.map (fun p => (truthyNames p).count X)).sum

/-- The counts of the ranking entries named `X` (the association-list
keys are distinct, so this list has at most one element). -/
def entryCounts (l : List AuthorEntry) (X : String) : List Nat :=
  (l.filter (fun e => e.name == X)).map (fun e => e.count)

/-- Number of papers whose author list contains a record named exactly
`X` — the per-paper-deduplicated count the spec attributes to
ALL-authors mode. -/
def papersCrediting (X : String) (papers : List Paper) : Nat :=
  papers.countP (fun p =>
    match p.authors with
    | none => false
    | some as => as.any (fun a => a.name == some X))

/-- Number of papers whose first author record is named `X` (after the
truthiness check). -/
def firstAuthorCredits (X : String) (papers : List Paper) : Nat :=
  papers.countP (fun p => firstTruthyName p == some X)

/-- The keys of the `authorPapers` object, in insertion order. -/
def aggKeys (m : List (String × List Paper)) : List String :=
  m.map Prod.fst

instance : IsTotal AuthorStat authorRel :=
  ⟨fun a b => by
    unfold authorRel
    rcases Nat.lt_trichotomy a.count b.count with h | h | h
    · exact Or.inr (Or.inl h)
    · rcases le_total (getSurname a.name) (getSurname b.name) with hs | hs
      · exact Or.inl (Or.inr ⟨h, hs⟩)
      · exact Or.inr (Or.inr ⟨h.symm, hs⟩)
    · exact Or.inl (Or.inl h)⟩

instance : IsTrans AuthorStat authorRel :=
  ⟨fun a b c hab hbc => by
    unfold authorRel at hab hbc ⊢
    rcases hab with h1 | ⟨h1e, h1s⟩ <;> rcases hbc with h2 | ⟨h2e, h2s⟩
    · exact Or.inl (lt_trans h2 h1)
    · exact Or.inl (h2e ▸ h1)
    · exact Or.inl (h1e.symm ▸ h2)
    · exact Or.inr ⟨h1e.trans h2e, le_trans h1s h2s⟩⟩

instance : IsTotal Paper yearRel :=
  ⟨fun a b => le_total b.year a.year⟩

instance : IsTrans Paper yearRel :=
  ⟨fun _ _ _ hab hbc => le_trans hbc hab⟩

/-! ### Sample data for concrete witnesses -/

/-- First paper of the scenario in the spec's Testable Properties
section. -/
def samplePaper1 : Paper :=
  ⟨"P1", some [⟨some "Alice Smith", none⟩], "CCS", 2020, "Best Paper", none⟩

/-- Second paper of that scenario. -/
def samplePaper2 : Paper :=
  ⟨"P2", some [⟨some "Bob Lee", none⟩, ⟨some "Alice Smith", none⟩], "S&P",
    2021, "Best Paper", none⟩

/-- The entry the ALL-authors ranking produces for Alice Smith on the
two sample papers. -/
def sampleAliceEntry : AuthorEntry :=
  ⟨"Alice Smith", [samplePaper2, samplePaper1], 2, 1⟩

/-- A paper whose `authors` field is missing / not an array. -/
def noAuthorsPaper : Paper :=
  ⟨"B", none, "CCS", 2019, "Best Paper", none⟩

/-- A paper whose only author record has no `name` field. -/
def noNamePaper : Paper :=
  ⟨"N", some [⟨none, some "Uni"⟩], "CCS", 2019, "Best Paper", none⟩

/-! ### Year-range slider state -/

/-- The `yearFrom`/`yearTo` globals kept in sync with the two sliders. -/
structure YearRange where
  yearFrom : Int
  yearTo : Int
deriving DecidableEq, Repr

/-- The three events handled in `setupFilters`: input on the lower
slider, input on the upper slider, and the reset button. -/
inductive SliderEvent
  | setLower (v : Int)
  | setUpper (v : Int)
  | reset
deriving DecidableEq, Repr

/-- The state update of each handler: the lower slider clamps its value
down to the upper slider's value when it exceeds it, the upper slider
clamps up to the lower slider's value, and reset restores
`[minYear, maxYear]`. -/
def stepRange (minYear maxYear : Int) (s : YearRange) :
    SliderEvent → YearRange
  | .setLower v => { s with yearFrom := if s.yearTo < v then s.yearTo else v }
  | .setUpper v => { s with yearTo := if v < s.yearFrom then s.yearFrom else v }
  | .reset => ⟨minYear, maxYear⟩

/-! ### Dense-ranking property -/

/-- The continuation of the dense-ranking rule after an entry of count
`c` and rank `r`: the next entry repeats rank `r` exactly when its
count equals `c`, and otherwise has rank `r + 1`. -/
def denseFrom : Nat → Nat → List AuthorEntry → Prop
  | _, _, [] => True
  | c, r, e :: rest =>
    e.rank = (if e.count = c then r else r + 1) ∧ denseFrom e.count e.rank rest

/-- Dense ranking as the spec states it: the first entry has rank 1 and
each later entry repeats or increments its predecessor's rank according
to count equality. -/
def DenseOk : List AuthorEntry → Prop
  | [] => True
  | e :: rest => e.rank = 1 ∧ denseFrom e.count e.rank rest

/-! ### Aggregation lemmas -/

lemma aggLookup_insertAuthor (m : List (String × List Paper)) (n : String)
    (p : Paper) (X : String) :
    aggLookup (insertAuthor m n p) X =
      if X = n then aggLookup m X ++ [p] else aggLookup m X := by
  induction m with
  | nil =>
    by_cases h : X = n
    · subst h; simp [insertAuthor, aggLookup]
    · simp [insertAuthor, aggLookup, h, Ne.symm h]
  | cons kv rest ih =>
    obtain ⟨k, ps⟩ := kv
    by_cases hkn : k = n
    · subst hkn
      by_cases hXk : k = X
      · subst hXk
        simp [insertAuthor, aggLookup]
      · simp [insertAuthor, aggLookup, hXk, Ne.symm hXk]
    · by_cases hXk : k = X
      · subst hXk
        simp [insertAuthor, aggLookup, hkn, Ne.symm hkn]
      · simp [insertAuthor, aggLookup, hkn, hXk, ih]

lemma aggLookup_foldl_insert (ns : List String) (p : Paper)
    (m : List (String × List Paper)) (X : String) :
    aggLookup (ns.foldl (fun acc n => insertAuthor acc n p) m) X =
      aggLookup m X ++ List.replicate (ns.count X) p := by
  induction ns generalizing m with
  | nil => simp
  | cons n ns ih =>
    rw [List.foldl_cons, ih, aggLookup_insertAuthor]
    by_cases h : X = n
    · subst h
      simp [List.count_cons, List.replicate_succ, List.append_assoc]
    · simp [List.count_cons, fun h2 => h (beq_iff_eq.mp h2).symm, h,
        Ne.symm h]

lemma foldl_authors_eq (as : List Author) (p : Paper)
    (m : List (String × List Paper)) :
    as.foldl
      (fun acc a =>
        match truthy a.name with
        | none => acc
        | some n => insertAuthor acc n p)
      m =
    (as.filterMap (fun a => truthy a.name)).foldl
      (fun acc n => insertAuthor acc n p) m := by
  induction as generalizing m with
  | nil => simp
  | cons a rest ih =>
    cases h : truthy a.name <;>
      simp [List.filterMap_cons, h, ih]

lemma addPaperAll_eq_foldl (m : List (String × List Paper)) (p : Paper) :
    addPaperAll m p =
      (truthyNames p).foldl (fun acc n => insertAuthor acc n p) m := by
  cases hA : p.authors with
  | none => simp [addPaperAll, truthyNames, hA]
  | some as =>
    simp only [addPaperAll, truthyNames, hA]
    exact foldl_authors_eq as p m

lemma aggLookup_addPaperAll (m : List (String × List Paper)) (p : Paper)
    (X : String) :
    aggLookup (addPaperAll m p) X =
      aggLookup m X ++ List.replicate ((truthyNames p).count X) p := by
  rw [addPaperAll_eq_foldl, aggLookup_foldl_insert]

lemma aggLookup_addPaperFirst (m : List (String × List Paper)) (p : Paper)
    (X : String) :
    aggLookup (addPaperFirst m p) X =
      aggLookup m X ++ (if firstTruthyName p = some X then [p] else []) := by
  cases hA : p.authors with
  | none => simp [addPaperFirst, firstTruthyName, hA]
  | some as =>
    cases as with
    | nil => simp [addPaperFirst, firstTruthyName, hA]
    | cons a rest =>
      simp only [addPaperFirst, firstTruthyName, hA]
      cases hT : truthy a.name with
      | none => simp
      | some n =>
        rw [aggLookup_insertAuthor]
        by_cases h : X = n
        · subst h; simp
        · have hne : some n ≠ some X := by
            intro h2
            exact h (Option.some_inj.mp h2).symm
          simp [h, hne]

lemma aggLookup_aggregate_all (papers : List Paper) (X : String) :
    aggLookup (aggregate .all papers) X =
      (papers.map (fun p => List.replicate ((truthyNames p).count X) p)).flatten := by
  suffices h : ∀ m, aggLookup (papers.foldl addPaperAll m) X =
      aggLookup m X ++
        (papers.map (fun p => List.replicate ((truthyNames p).count X) p)).flatten by
    simpa [aggregate, addPaper] using h []
  induction papers with
  | nil => simp
  | cons p rest ih =>
    intro m
    rw [List.foldl_cons, ih, aggLookup_addPaperAll]
    simp [List.append_assoc]

lemma aggLookup_aggregate_first (papers : List Paper) (X : String) :
    aggLookup (aggregate .first papers) X =
      papers.filter (fun p => firstTruthyName p == some X) := by
  suffices h : ∀ m, aggLookup (papers.foldl addPaperFirst m) X =
      aggLookup m X ++ papers.filter (fun p => firstTruthyName p == some X) by
    simpa [aggregate, addPaper] using h []
  induction papers with
  | nil => simp
  | cons p rest ih =>
    intro m
    rw [List.foldl_cons, ih, aggLookup_addPaperFirst]
    by_cases h : firstTruthyName p = some X <;>
      simp [h, List.append_assoc]

lemma aggKeys_insertAuthor (m : List (String × List Paper)) (n : String)
    (p : Paper) :
    aggKeys (insertAuthor m n p) =
      if n ∈ aggKeys m then aggKeys m else aggKeys m ++ [n] := by
  induction m with
  | nil => simp [insertAuthor, aggKeys]
  | cons kv rest ih =>
    obtain ⟨k, ps⟩ := kv
    by_cases hkn : k = n
    · subst hkn
      simp [insertAuthor, aggKeys]
    · simp only [insertAuthor, if_neg hkn, aggKeys, List.map_cons] at ih ⊢
      rw [ih]
      by_cases hmem : n ∈ rest.map Prod.fst <;>
        simp [hmem, Ne.symm hkn]

lemma nodup_aggKeys_insertAuthor (m : List (String × List Paper))
    (n : String) (p : Paper) (h : (aggKeys m).Nodup) :
    (aggKeys (insertAuthor m n p)).Nodup := by
  rw [aggKeys_insertAuthor]
  by_cases hmem : n ∈ aggKeys m
  · simpa [hmem] using h
  · simp only [hmem, if_false]
    rw [List.nodup_append]
    refine ⟨h, List.nodup_singleton n, ?_⟩
    intro a ha hab
    simp only [List.mem_singleton] at hab
    subst hab
    exact hmem ha

lemma nodup_aggKeys_addPaper (mode : Mode) (m : List (String × List Paper))
    (p : Paper) (h : (aggKeys m).Nodup) :
    (aggKeys (addPaper mode m p)).Nodup := by
  cases mode with
  | all =>
    show (aggKeys (addPaperAll m p)).Nodup
    rw [addPaperAll_eq_foldl]
    generalize truthyNames p = ns
    induction ns generalizing m with
    | nil => exact h
    | cons n ns ih => exact ih _ (nodup_aggKeys_insertAuthor m n p h)
  | first =>
    show (aggKeys (addPaperFirst m p)).Nodup
    cases hA : p.authors with
    | none => simpa [addPaperFirst, hA] using h
    | some as =>
      cases as with
      | nil => simpa [addPaperFirst, hA] using h
      | cons a rest =>
        simp only [addPaperFirst, hA]
        cases hT : truthy a.name with
        | none => exact h
        | some n => exact nodup_aggKeys_insertAuthor m n p h

lemma nodup_aggKeys_aggregate (mode : Mode) (papers : List Paper) :
    (aggKeys (aggregate mode papers)).Nodup := by
  suffices h : ∀ m, (aggKeys m).Nodup →
      (aggKeys (papers.foldl (addPaper mode) m)).Nodup by
    exact h [] (by simp [aggKeys])
  induction papers with
  | nil => exact fun m hm => hm
  | cons p rest ih =>
    intro m hm
    exact ih _ (nodup_aggKeys_addPaper mode m p hm)

lemma values_ne_nil_insertAuthor (m : List (String × List Paper))
    (n : String) (p : Paper) (h : ∀ kv ∈ m, kv.2 ≠ []) :
    ∀ kv ∈ insertAuthor m n p, kv.2 ≠ [] := by
  induction m with
  | nil =>
    intro kv hkv
    simp only [insertAuthor, List.mem_singleton] at hkv
    subst hkv; simp
  | cons hd rest ih =>
    obtain ⟨k, ps⟩ := hd
    by_cases hkn : k = n
    · subst hkn
      intro kv hkv
      rw [insertAuthor, if_pos rfl] at hkv
      rcases List.mem_cons.mp hkv with h1 | h2
      · subst h1; simp
      · exact h kv (List.mem_cons_of_mem _ h2)
    · intro kv hkv
      rw [insertAuthor, if_neg hkn] at hkv
      rcases List.mem_cons.mp hkv with h1 | h2
      · subst h1; exact h (k, ps) (List.mem_cons_self _ _)
      · exact ih (fun kv hkv => h kv (List.mem_cons_of_mem _ hkv)) kv h2

lemma values_ne_nil_addPaper (mode : Mode) (m : List (String × List Paper))
    (p : Paper) (h : ∀ kv ∈ m, kv.2 ≠ []) :
    ∀ kv ∈ addPaper mode m p, kv.2 ≠ [] := by
  cases mode with
  | all =>
    show ∀ kv ∈ addPaperAll m p, kv.2 ≠ []
    rw [addPaperAll_eq_foldl]
    generalize truthyNames p = ns
    induction ns generalizing m with
    | nil => exact h
    | cons n ns ih => exact ih _ (values_ne_nil_insertAuthor m n p h)
  | first =>
    show ∀ kv ∈ addPaperFirst m p, kv.2 ≠ []
    cases hA : p.authors with
    | none => simpa [addPaperFirst, hA] using h
    | some as =>
      cases as with
      | nil => simpa [addPaperFirst, hA] using h
      | cons a rest =>
        simp only [addPaperFirst, hA]
        cases hT : truthy a.name with
        | none => exact h
        | some n => exact values_ne_nil_insertAuthor m n p h

lemma values_ne_nil_aggregate (mode : Mode) (papers : List Paper) :
    ∀ kv ∈ aggregate mode papers, kv.2 ≠ [] := by
  suffices h : ∀ m, (∀ kv ∈ m, kv.2 ≠ []) →
      ∀ kv ∈ papers.foldl (addPaper mode) m, kv.2 ≠ [] by
    exact h [] (by simp)
  induction papers with
  | nil => exact fun m hm => hm
  | cons p rest ih =>
    intro m hm
    exact ih _ (values_ne_nil_addPaper mode m p hm)

lemma aggLookup_of_mem (m : List (String × List Paper)) (n : String)
    (ps : List Paper) (hnd : (aggKeys m).Nodup) (hmem : (n, ps) ∈ m) :
    aggLookup m n = ps := by
  induction m with
  | nil => cases hmem
  | cons kv rest ih =>
    obtain ⟨k, qs⟩ := kv
    rcases List.mem_cons.mp hmem with h1 | h2
    · injection h1 with h1a h1b
      subst h1a
      subst h1b
      simp [aggLookup]
    · have hk_ne : k ≠ n := by
        intro hk
        subst hk
        have : k ∈ aggKeys rest :=
          List.mem_map.mpr ⟨(k, ps), h2, rfl⟩
        exact (List.nodup_cons.mp hnd).1 this
      simp only [aggLookup, if_neg hk_ne]
      exact ih (List.nodup_cons.mp hnd).2 h2

lemma filter_key_eq (m : List (String × List Paper)) (X : String)
    (hnd : (aggKeys m).Nodup) (hne : ∀ kv ∈ m, kv.2 ≠ []) :
    m.filter (fun kv => kv.1 == X) =
      if aggLookup m X = [] then [] else [(X, aggLookup m X)] := by
  induction m with
  | nil => simp [aggLookup]
  | cons kv rest ih =>
    obtain ⟨k, ps⟩ := kv
    by_cases hk : k = X
    · subst hk
      have hrest : rest.filter (fun kv => kv.1 == k) = [] := by
        rw [List.filter_eq_nil_iff]
        intro kv hkv hbeq
        have : k ∈ aggKeys rest :=
          List.mem_map.mpr ⟨kv, hkv, (beq_iff_eq.mp hbeq)⟩
        exact (List.nodup_cons.mp hnd).1 this
      have hps : ps ≠ [] := hne (k, ps) (List.mem_cons_self _ _)
      simp [aggLookup, List.filter_cons, hrest, hps]
    · have := ih (List.nodup_cons.mp hnd).2
        (fun kv hkv => hne kv (List.mem_cons_of_mem _ hkv))
      simp [aggLookup, List.filter_cons, hk, this]

/-! ### Pipeline projection lemmas -/

lemma assignRanksAux_pairs (l : List AuthorStat) (pc : Option Nat) (r : Nat) :
    (assignRanksAux pc r l).map (fun e => (e.name, e.count)) =
      l.map (fun s => (s.name, s.count)) := by
  induction l generalizing pc r with
  | nil => rfl
  | cons a rest ih => simp [assignRanksAux, ih]

/-- The `(name, count)` pairs of the final ranking are those of the
sorted `authorList`. -/
lemma rankModel_pairs (mode : Mode) (papers : List Paper) :
    (rankModel mode papers).map (fun e => (e.name, e.count)) =
      (List.insertionSort authorRel
          ((aggregate mode papers).map
            (fun kv => AuthorStat.mk kv.1 kv.2 kv.2.length))).map
        (fun s : AuthorStat => (s.name, s.count)) := by
  unfold rankModel assignRanks
  rw [List.map_map]
  exact assignRanksAux_pairs _ none 0

lemma entryCounts_eq_pairs (l : List AuthorEntry) (X : String) :
    entryCounts l X =
      ((l.map (fun e => (e.name, e.count))).filter
        (fun q => q.1 == X)).map Prod.snd := by
  rw [List.filter_map, List.map_map]
  rfl

/-- The counts credited to key `X` by the full pipeline are exactly the
length of the aggregated array `authorPapers[X]` — one entry when the
key exists, none otherwise. -/
lemma entryCounts_rankModel (mode : Mode) (papers : List Paper) (X : String) :
    entryCounts (rankModel mode papers) X =
      if aggLookup (aggregate mode papers) X = [] then []
      else [(aggLookup (aggregate mode papers) X).length] := by
  rw [entryCounts_eq_pairs, rankModel_pairs]
  have hperm :
      List.Perm
        (((List.insertionSort authorRel
            ((aggregate mode papers).map
              (fun kv => AuthorStat.mk kv.1 kv.2 kv.2.length))).map
          (fun s : AuthorStat => (s.name, s.count))).filter
            (fun q => q.1 == X))
        ((((aggregate mode papers).map
            (fun kv => AuthorStat.mk kv.1 kv.2 kv.2.length)).map
          (fun s : AuthorStat => (s.name, s.count))).filter
            (fun q => q.1 == X)) :=
    List.Perm.filter _ (List.Perm.map _ (List.perm_insertionSort _ _))
  have hbase :
      (((aggregate mode papers).map
          (fun kv => AuthorStat.mk kv.1 kv.2 kv.2.length)).map
        (fun s : AuthorStat => (s.name, s.count))).filter
          (fun q => q.1 == X) =
      ((aggregate mode papers).filter (fun kv => kv.1 == X)).map
        (fun kv => (kv.1, kv.2.length)) := by
    rw [List.map_map, List.filter_map]
    rfl
  rw [hbase] at hperm
  rw [filter_key_eq _ _ (nodup_aggKeys_aggregate mode papers)
    (values_ne_nil_aggregate mode papers)] at hperm
  by_cases h : aggLookup (aggregate mode papers) X = []
  · rw [if_pos h] at hperm ⊢
    simpa using (hperm.map Prod.snd).eq_nil
  · rw [if_neg h] at hperm ⊢
    exact List.perm_singleton.mp (by simpa using hperm.map Prod.snd)

/-! ### Entry decomposition -/

lemma mem_assignRanksAux (e : AuthorEntry) (l : List AuthorStat)
    (pc : Option Nat) (r : Nat) (h : e ∈ assignRanksAux pc r l) :
    AuthorStat.mk e.name e.papers e.count ∈ l := by
  induction l generalizing pc r with
  | nil => cases h
  | cons a rest ih =>
    rcases List.mem_cons.mp h with h1 | h2
    · subst h1
      exact List.mem_cons.mpr (Or.inl rfl)
    · exact List.mem_cons_of_mem _ (ih _ _ h2)

/-- Every entry of the ranking output is, up to the final per-author
paper sort, an entry of the aggregation object: its papers are the
stable year-descending sort of `authorPapers[name]` and its count is
that array's length. -/
lemma rankModel_entry_decomp (mode : Mode) (papers : List Paper)
    (e : AuthorEntry) (he : e ∈ rankModel mode papers) :
    e.papers = List.insertionSort yearRel
      (aggLookup (aggregate mode papers) e.name) ∧
    e.count = (aggLookup (aggregate mode papers) e.name).length := by
  unfold rankModel at he
  rcases List.mem_map.mp he with ⟨e', he', rfl⟩
  have h1 := mem_assignRanksAux e' _ none 0 he'
  rw [List.mem_insertionSort] at h1
  rcases List.mem_map.mp h1 with ⟨kv, hkv, hkveq⟩
  have hname : kv.1 = e'.name := congrArg AuthorStat.name hkveq
  have hpapers : kv.2 = e'.papers := congrArg AuthorStat.papers hkveq
  have hlook : aggLookup (aggregate mode papers) kv.1 = kv.2 :=
    aggLookup_of_mem _ _ _ (nodup_aggKeys_aggregate mode papers) hkv
  have hcount : kv.2.length = e'.count := congrArg AuthorStat.count hkveq
  have hkey : aggLookup (aggregate mode papers) e'.name = e'.papers := by
    rw [← hname, hlook, hpapers]
  constructor
  · show List.insertionSort yearRel e'.papers =
      List.insertionSort yearRel (aggLookup (aggregate mode papers) e'.name)
    rw [hkey]
  · show e'.count = (aggLookup (aggregate mode papers) e'.name).length
    rw [hkey]
    exact (hpapers ▸ hcount).symm

lemma mem_aggLookup_aggregate (mode : Mode) (papers : List Paper)
    (X : String) (p : Paper)
    (h : p ∈ aggLookup (aggregate mode papers) X) : p ∈ papers := by
  cases mode with
  | all =>
    rw [aggLookup_aggregate_all] at h
    rcases List.mem_flatten.mp h with ⟨l, hl, hpl⟩
    rcases List.mem_map.mp hl with ⟨q, hq, rfl⟩
    rw [List.eq_of_mem_replicate hpl]
    exact hq
  | first =>
    rw [aggLookup_aggregate_first] at h
    exact List.mem_of_mem_filter h

/-- With at most one occurrence of the key per paper, the aggregated
array of the ALL-authors mode is a sublist of the input collection. -/
lemma aggLookup_all_sublist (papers : List Paper) (X : String)
    (h : ∀ p ∈ papers, (truthyNames p).count X ≤ 1) :
    List.Sublist (aggLookup (aggregate .all papers) X) papers := by
  rw [aggLookup_aggregate_all]
  induction papers with
  | nil => simp
  | cons p rest ih =>
    have hp := h p (List.mem_cons_self _ _)
    have hrest := ih (fun q hq => h q (List.mem_cons_of_mem _ hq))
    rw [List.map_cons, List.flatten_cons]
    interval_cases hc : (truthyNames p).count X
    · simpa using List.Sublist.trans hrest (List.sublist_cons_self p rest)
    · simpa [List.replicate_succ] using List.Sublist.cons₂ p hrest

lemma pairwise_year_filter (l : List Paper) (y : Int) :
    (l.filter (fun p => p.year == y)).Pairwise yearRel := by
  induction l with
  | nil => simp
  | cons p rest ih =>
    rw [List.filter_cons]
    by_cases hp : p.year = y
    · simp only [hp, beq_self_eq_true, if_true]
      refine List.Pairwise.cons ?_ ih
      intro q hq
      have hqy : q.year = y := by
        have := (List.mem_filter.mp hq).2
        exact beq_iff_eq.mp this
      show q.year ≤ p.year
      rw [hqy, hp]
    · simpa [hp] using ih

/-- Stability of the year sort: filtering the stable sort at one year
gives the same sequence as filtering the unsorted array. -/
lemma insertionSort_year_filter (ps : List Paper) (y : Int) :
    (List.insertionSort yearRel ps).filter (fun p => p.year == y) =
      ps.filter (fun p => p.year == y) := by
  have hA : List.Sublist (ps.filter (fun p => p.year == y))
      (List.insertionSort yearRel ps) :=
    List.sublist_insertionSort (pairwise_year_filter ps y)
      (List.filter_sublist ps)
  have hperm :
      List.Perm ((List.insertionSort yearRel ps).filter (fun p => p.year == y))
        (ps.filter (fun p => p.year == y)) :=
    List.Perm.filter _ (List.perm_insertionSort yearRel ps)
  have hAB : List.Sublist (ps.filter (fun p => p.year == y))
      ((List.insertionSort yearRel ps).filter (fun p => p.year == y)) := by
    have := List.Sublist.filter (fun p : Paper => p.year == y) hA
    rwa [List.filter_filter, show
      (fun p : Paper => (p.year == y) && (p.year == y)) =
        (fun p : Paper => p.year == y) from funext (fun p => by
          by_cases h : p.year = y <;> simp [h])] at this
  exact (hAB.eq_of_length (hperm.length_eq).symm).symm

lemma denseFrom_assignRanksAux (l : List AuthorStat) (c r : Nat) :
    denseFrom c r (assignRanksAux (some c) r l) := by
  induction l generalizing c r with
  | nil => trivial
  | cons a rest ih =>
    by_cases h : a.count = c <;>
      simpa [assignRanksAux, denseFrom, h] using ih a.count _

lemma denseOk_assignRanks (l : List AuthorStat) :
    DenseOk (assignRanks l) := by
  cases l with
  | nil => trivial
  | cons a rest =>
    refine ⟨by simp [assignRanks, assignRanksAux], ?_⟩
    simpa [assignRanks, assignRanksAux] using denseFrom_assignRanksAux rest a.count 1

lemma denseFrom_map (f : AuthorEntry → AuthorEntry)
    (hf : ∀ e, (f e).count = e.count ∧ (f e).rank = e.rank) :
    ∀ (l : List AuthorEntry) (c r : Nat),
      denseFrom c r l → denseFrom c r (l.map f)
  | [], _, _, _ => trivial
  | e :: rest, c, r, h => by
    refine ⟨?_, ?_⟩
    · rw [(hf e).1, (hf e).2]; exact h.1
    · rw [(hf e).1, (hf e).2]; exact denseFrom_map f hf rest e.count e.rank h.2

lemma denseOk_map (f : AuthorEntry → AuthorEntry)
    (hf : ∀ e, (f e).count = e.count ∧ (f e).rank = e.rank)
    (l : List AuthorEntry) (h : DenseOk l) : DenseOk (l.map f) := by
  cases l with
  | nil => trivial
  | cons e rest =>
    refine ⟨?_, ?_⟩
    · rw [(hf e).2]; exact h.1
    · rw [(hf e).1, (hf e).2]; exact denseFrom_map f hf rest e.count e.rank h.2

/-! ### Filter engine lemmas -/

lemma applyFilters_eq_filter (C : List Paper) (v : String) (yFrom yTo : Int) :
    applyFilters C v (some yFrom) (some yTo) =
      C.filter (fun p => decide (specFilterPred v yFrom yTo p)) := by
  unfold applyFilters
  by_cases hv : v = "all"
  · subst hv
    simp only [ne_eq, not_true_eq_false, if_false, List.filter_filter]
    apply List.filter_congr
    intro p _
    by_cases h1 : yFrom ≤ p.year <;> by_cases h2 : p.year ≤ yTo <;>
      simp [specFilterPred, h1, h2]
  · simp only [ne_eq, hv, not_false_eq_true, if_true, List.filter_filter]
    apply List.filter_congr
    intro p _
    by_cases h0 : p.venue = v <;> by_cases h1 : yFrom ≤ p.year <;>
        by_cases h2 : p.year ≤ yTo <;>
      simp [specFilterPred, h0, h1, h2, hv]

lemma applyFilters_sublist (C : List Paper) (v : String) (yFrom yTo : Int) :
    List.Sublist (applyFilters C v (some yFrom) (some yTo)) C := by
  rw [applyFilters_eq_filter]
  exact List.filter_sublist C

/-! ### Claim theorems: filter engine and slider state -/

/-- C1: `filter(C, v, yFrom, yTo)` is exactly the subsequence of `C` of
papers satisfying the venue predicate (`v = "all"` or equal venue) and
the inclusive year range — the result equals the literal `List.filter`
of that predicate (hence sound, complete, and order-preserving), and is
a sublist of `C`. -/
theorem filter_exact_subsequence (C : List Paper) (v : String)
    (yFrom yTo : Int) :
    applyFilters C v (some yFrom) (some yTo) =
      C.filter (fun p => decide (specFilterPred v yFrom yTo p)) ∧
    List.Sublist (applyFilters C v (some yFrom) (some yTo)) C :=
  ⟨applyFilters_eq_filter C v yFrom yTo, applyFilters_sublist C v yFrom yTo⟩

/-- C7: when the caller violates the `yearFrom ≤ yearTo` precondition,
`filter` still returns (no exception is possible in the embedding) and
produces the empty sequence. -/
theorem filter_inverted_range_empty (C : List Paper) (v : String)
    (yFrom yTo : Int) (h : yTo < yFrom) :
    applyFilters C v (some yFrom) (some yTo) = [] := by
  rw [applyFilters_eq_filter]
  rw [List.filter_eq_nil_iff]
  intro p _
  simp only [decide_eq_true_eq, specFilterPred, not_and]
  intro _ h1 h2
  omega

/-- Witness for C7 at a concrete inverted range on a one-paper
collection. -/
theorem filter_inverted_range_empty_witness :
    (2020 : Int) < 2022 ∧
      applyFilters [⟨"P1", some [⟨some "Alice Smith", none⟩], "CCS", 2021, "Best Paper", none⟩]
        "all" (some 2022) (some 2020) = [] :=
  ⟨by norm_num,
    filter_inverted_range_empty _ "all" 2022 2020 (by norm_num)⟩

/-- C6: every slider event preserves `yearFrom ≤ yearTo`; moving the
lower bound above the upper bound clamps it down to the upper bound,
moving the upper bound below the lower bound clamps it up to the lower
bound, and reset restores `[minYear, maxYear]`. -/
theorem yearRange_clamp (minY maxY : Int) (s : YearRange) (e : SliderEvent)
    (hs : s.yearFrom ≤ s.yearTo) (hm : minY ≤ maxY) :
    ((stepRange minY maxY s e).yearFrom ≤ (stepRange minY maxY s e).yearTo) ∧
    (∀ v : Int, s.yearTo < v →
      stepRange minY maxY s (.setLower v) = { s with yearFrom := s.yearTo }) ∧
    (∀ v : Int, v < s.yearFrom →
      stepRange minY maxY s (.setUpper v) = { s with yearTo := s.yearFrom }) ∧
    stepRange minY maxY s .reset = ⟨minY, maxY⟩ := by
  refine ⟨?_, ?_, ?_, rfl⟩
  · cases e <;> simp only [stepRange] <;> first
      | exact hm
      | (split <;> omega)
  · intro v hv
    simp [stepRange, if_pos hv]
  · intro v hv
    simp [stepRange, if_pos hv]

/-- Witness for C6 at a concrete state and event. -/
theorem yearRange_clamp_witness :
    (2015 : Int) ≤ 2018 ∧ (2012 : Int) ≤ 2025 ∧
      stepRange 2012 2025 ⟨2015, 2018⟩ (.setLower 2022) =
        { yearFrom := 2018, yearTo := 2018 } :=
  ⟨by norm_num, by norm_num, by
    have h := (yearRange_clamp 2012 2025 ⟨2015, 2018⟩ (.setLower 2022)
      (by norm_num) (by norm_num)).2.1 2022 (by norm_num)
    simpa using h⟩

/-- C3: in either aggregation mode the output ranks are dense over the
sorted author sequence: rank 1 first, equal count repeats the rank,
a count change increments it by exactly one. -/
theorem ranks_dense (mode : Mode) (papers : List Paper) :
    DenseOk (rankModel mode papers) := by
  unfold rankModel
  exact denseOk_map
    (fun e => { e with papers := List.insertionSort yearRel e.papers })
    (fun e => ⟨rfl, rfl⟩) _ (denseOk_assignRanks _)

/-- C4: in either mode the ranking output is pairwise ordered by count
descending, with ties ordered by ascending comparison of the surname
keys (`getSurname` = last whitespace-separated token of the name). -/
theorem ranking_sorted (mode : Mode) (papers : List Paper) :
    (rankModel mode papers).Pairwise (fun a b : AuthorEntry =>
      b.count < a.count ∨
        (a.count = b.count ∧ getSurname a.name ≤ getSurname b.name)) := by
  have hs := List.sorted_insertionSort authorRel
    ((aggregate mode papers).map (fun kv => AuthorStat.mk kv.1 kv.2 kv.2.length))
  have hp : ((rankModel mode papers).map (fun e => (e.name, e.count))).Pairwise
      (fun q1 q2 : String × Nat =>
        q2.2 < q1.2 ∨ (q1.2 = q2.2 ∧ getSurname q1.1 ≤ getSurname q2.1)) := by
    rw [rankModel_pairs]
    exact List.Pairwise.map _ (fun a b h => h) hs
  rw [List.pairwise_map] at hp
  exact hp

/-- Counterexample to C2 as stated: a single paper listing the author
name `"X"` twice is credited to `"X"` with count 2 by the code, while
only one paper in the input has an author record named `"X"`. -/
theorem allAuthors_per_paper_dedup_cx :
    entryCounts
        (rankModel .all
          [⟨"T", some [⟨some "X", none⟩, ⟨some "X", none⟩], "V", 2020, "Best Paper", none⟩])
        "X" ≠
      [papersCrediting "X"
        [⟨"T", some [⟨some "X", none⟩, ⟨some "X", none⟩], "V", 2020, "Best Paper", none⟩]] := by
  have h1 :
      entryCounts
        (rankModel .all
          [⟨"T", some [⟨some "X", none⟩, ⟨some "X", none⟩], "V", 2020, "Best Paper", none⟩])
        "X" = [2] := by rfl
  have h2 :
      papersCrediting "X"
        [⟨"T", some [⟨some "X", none⟩, ⟨some "X", none⟩], "V", 2020, "Best Paper", none⟩] = 1 := by
    rfl
  rw [h1, h2]
  simp

/-- C2 as amended: in ALL_AUTHORS mode the count credited to an author
named `X` is the total number of author records named `X` across the
input papers, counted with multiplicity inside each paper (a paper
listing `X` twice contributes 2); occurrences across papers accumulate
into the single entry keyed `X`, and there is no entry for `X` when the
total is zero. -/
theorem allAuthors_credit_occurrences (papers : List Paper) (X : String) :
    entryCounts (rankModel .all papers) X =
      if totalCredits X papers = 0 then [] else [totalCredits X papers] := by
  rw [entryCounts_rankModel]
  have hlen : (aggLookup (aggregate .all papers) X).length = totalCredits X papers := by
    rw [aggLookup_aggregate_all, List.length_flatten, List.map_map]
    simp [totalCredits, Function.comp_def]
  have hiff : (aggLookup (aggregate .all papers) X = []) ↔
      (totalCredits X papers = 0) := by
    rw [← hlen, List.length_eq_zero]
  rw [hlen]
  exact if_congr hiff rfl rfl

/-- C5: in FIRST_AUTHOR_ONLY mode the count credited to an author named
`X` is exactly the number of papers whose author record at index 0 is
named `X` (there is no entry when that number is zero), and a paper
with an empty authors list yields no first-author name at all. -/
theorem firstAuthor_credit_first_slot (papers : List Paper) (X : String) :
    (entryCounts (rankModel .first papers) X =
      if firstAuthorCredits X papers = 0 then []
      else [firstAuthorCredits X papers]) ∧
    (∀ (t ven aw : String) (y : Int) (u : Option String),
      firstTruthyName ⟨t, some [], ven, y, aw, u⟩ = none) := by
  refine ⟨?_, fun t ven aw y u => rfl⟩
  rw [entryCounts_rankModel]
  have hlen : (aggLookup (aggregate .first papers) X).length =
      firstAuthorCredits X papers := by
    rw [aggLookup_aggregate_first, firstAuthorCredits,
      List.countP_eq_length_filter]
  have hiff : (aggLookup (aggregate .first papers) X = []) ↔
      (firstAuthorCredits X papers = 0) := by
    rw [← hlen, List.length_eq_zero]
  rw [hlen]
  exact if_congr hiff rfl rfl

/-- C8: on inputs whose papers list each truthy author name at most
once, every entry's credited papers are pairwise ordered by year
descending, and the papers of any fixed year appear as a sublist of the
input collection — i.e. equal-year ties keep their original relative
order. -/
theorem perAuthor_papers_sorted (mode : Mode) (papers : List Paper)
    (hnd : ∀ p ∈ papers, (truthyNames p).Nodup) :
    ∀ e ∈ rankModel mode papers,
      e.papers.Pairwise (fun a b : Paper => b.year ≤ a.year) ∧
      ∀ y : Int,
        List.Sublist (e.papers.filter (fun p => p.year == y)) papers := by
  intro e he
  obtain ⟨hps, -⟩ := rankModel_entry_decomp mode papers e he
  have hsub : List.Sublist (aggLookup (aggregate mode papers) e.name) papers := by
    cases mode with
    | all =>
      apply aggLookup_all_sublist
      intro p hp
      exact List.nodup_iff_count_le_one.mp (hnd p hp) _
    | first =>
      rw [aggLookup_aggregate_first]
      exact List.filter_sublist papers
  constructor
  · rw [hps]
    exact List.sorted_insertionSort yearRel _
  · intro y
    rw [hps, insertionSort_year_filter]
    exact List.Sublist.trans (List.filter_sublist _) hsub

/-- Witness for C8: Alice Smith's entry on the sample papers, filtered
at year 2020, is a sublist of the input. -/
theorem perAuthor_papers_sorted_witness :
    List.Sublist
      (sampleAliceEntry.papers.filter (fun p => p.year == (2020 : Int)))
      [samplePaper1, samplePaper2] :=
  (perAuthor_papers_sorted .all [samplePaper1, samplePaper2]
      (by decide) sampleAliceEntry (by decide)).2 2020

/-- C9: malformed input is skipped silently — a paper with a
missing/non-array `authors` field leaves the whole ranking unchanged
(both modes, anywhere in the collection), the ALL-authors step
processes exactly the truthy-named author records of a paper, and the
first-author step is a no-op on a paper whose first author has no
truthy name. -/
theorem malformed_input_skipped :
    (∀ (mode : Mode) (xs ys : List Paper) (p : Paper), p.authors = none →
      rankModel mode (xs ++ p :: ys) = rankModel mode (xs ++ ys)) ∧
    (∀ (m : List (String × List Paper)) (p : Paper),
      addPaperAll m p =
        (truthyNames p).foldl (fun acc n => insertAuthor acc n p) m) ∧
    (∀ (m : List (String × List Paper)) (p : Paper) (a : Author)
        (rest : List Author), p.authors = some (a :: rest) →
      truthy a.name = none → addPaperFirst m p = m) := by
  refine ⟨?_, addPaperAll_eq_foldl, ?_⟩
  · intro mode xs ys p hp
    have hstep : ∀ m, addPaper mode m p = m := by
      intro m
      cases mode with
      | all => simp [addPaper, addPaperAll, hp]
      | first => simp [addPaper, addPaperFirst, hp]
    have hagg : aggregate mode (xs ++ p :: ys) = aggregate mode (xs ++ ys) := by
      unfold aggregate
      rw [List.foldl_append, List.foldl_append, List.foldl_cons, hstep]
    unfold rankModel
    rw [hagg]
  · intro m p a rest hA hT
    simp [addPaperFirst, hA, hT]

/-- Witness for C9 on concrete malformed papers. -/
theorem malformed_input_skipped_witness :
    rankModel .all ([samplePaper1] ++ noAuthorsPaper :: []) =
      rankModel .all ([samplePaper1] ++ []) ∧
    addPaperFirst [] noNamePaper = [] :=
  ⟨malformed_input_skipped.1 .all [samplePaper1] [] noAuthorsPaper rfl,
   malformed_input_skipped.2.2 [] noNamePaper ⟨none, some "Uni"⟩ [] rfl rfl⟩

/-- C10: the ranking is a pure function of its input (the embedding is
value-semantic, and the code mutates only the freshly built per-author
arrays and entry objects), and every paper stored in any output entry
is one of the very records of the input collection. -/
theorem ranking_reads_input_only (mode : Mode) (papers : List Paper) :
    ∀ e ∈ rankModel mode papers, ∀ p ∈ e.papers, p ∈ papers := by
  intro e he p hp
  obtain ⟨hps, -⟩ := rankModel_entry_decomp mode papers e he
  rw [hps, List.mem_insertionSort] at hp
  exact mem_aggLookup_aggregate mode papers e.name p hp

/-- Witness for C10: a paper of Alice Smith's entry is a record of the
input. -/
theorem ranking_reads_input_only_witness :
    samplePaper2 ∈ [samplePaper1, samplePaper2] :=
  ranking_reads_input_only .all [samplePaper1, samplePaper2]
    sampleAliceEntry (by decide) samplePaper2 (by decide)

end BestPapers
